import Mathlib

/-!
Shallow embedding of the overflow-partitioning core of
`src/app/directives/tabs-overflow.directive.ts` (the `TabsOverflowDirective`
class): the `detectOverflow` recomputation and the `makeTabVisible`
promotion operation, modelled over pure data.

Items are represented by their measured widths, a `List Int` whose
positions are the item indices (`allTabs[i].index = i` in the source).
DOM reads (`getBoundingClientRect().width`) become lookups into this list;
DOM writes (style/class toggling) are dropped, keeping only the partition
data the directive exposes through its signals.
-/

namespace TabsOverflow

/-- The partition object built and returned by `detectOverflow`
(`{ hasOverflow, allTabs, visibleTabs, hiddenTabs }`); tabs are
represented by their indices. -/
structure TabPartition where
  hasOverflow : Bool
  allIdx : List Nat
  visibleIdx : List Nat
  hiddenIdx : List Nat
deriving Repr, DecidableEq

/-- The directive's mutable fields that drive the computation:
`visibleTabIndices`, `maxVisibleTabs`, `isInitialized`. -/
structure OState where
  visibleTabIndices : List Nat
  maxVisibleTabs : Nat
  isInitialized : Bool
deriving Repr, DecidableEq

/-- Models `const menuButtonWidth = 56` — width always reserved for the
overflow-menu trigger button. -/
def menuButtonWidth : Int := 56

/-- Width of the tab at index `i`; models
`allTabs.find(t => t.index === idx)` followed by reading the element's
width: an index with no matching tab contributes `0` (the source skips
the width read entirely when `find` returns `undefined`). -/
def widthAt (widths : List Int) (i : Nat) : Int :=
  (widths[i]?).getD 0

/-- Total measured width of the tabs listed in `vis` — the
`cumulativeWidth` accumulated over `visibleTabElements` in the warm
branch of `detectOverflow`. -/
def visWidth (widths : List Int) (vis : List Nat) : Int :=
  (vis.map (widthAt widths)).sum

/-- The cold-start measuring loop
(`for (...) { if (cumulativeWidth + tabWidth <= availableWidth) {...}
else break }`): number of leading tabs that fit greedily. -/
def fittingTabCount : List Int → Int → Int → Nat
  | [], _, _ => 0
  | w :: rest, avail, cum =>
    if cum + w ≤ avail then 1 + fittingTabCount rest avail (cum + w) else 0

/-- One-step iterations of the warm-branch eviction loop
(`while (cumulativeWidth > availableWidth && visibleTabIndices.length > 1)
{ pop; subtract popped width }`), with an explicit iteration bound
`fuel`; when `fuel ≥ vis.length` the loop can never exhaust `fuel`
before its guard fails, so this equals the source's `while` loop. -/
def evictGo (widths : List Int) (avail : Int) : Nat → List Nat → Int → List Nat
  | 0, vis, _ => vis
  | fuel + 1, vis, cum =>
    if avail < cum ∧ 1 < vis.length then
      evictGo widths avail fuel vis.dropLast
        (cum - widthAt widths (vis.getLastD 0))
    else vis

/-- The warm-branch eviction loop run to completion. -/
def evictFromEnd (widths : List Int) (avail : Int) (vis : List Nat) (cum : Int) : List Nat :=
  evictGo widths avail vis.length vis cum

/-- The `allTabs.forEach` split: each index of `idxs` goes to the visible
list when it is in `vis` and fewer than `maxV` tabs have been made
visible so far (`shouldBeVisible && visibleTabs.length < maxVisibleTabs`),
otherwise to the hidden list; `c` is the running visible count. -/
def splitTabs (vis : List Nat) (maxV : Nat) : List Nat → Nat → List Nat × List Nat
  | [], _ => ([], [])
  | j :: rest, c =>
    if j ∈ vis ∧ c < maxV then
      let p := splitTabs vis maxV rest (c + 1)
      (j :: p.1, p.2)
    else
      let p := splitTabs vis maxV rest c
      (p.1, j :: p.2)

/-- The early-return value of `detectOverflow` when no tabs are found. -/
def emptyPartition : TabPartition :=
  { hasOverflow := false, allIdx := [], visibleIdx := [], hiddenIdx := [] }

/-- The cold branch (`!this.isInitialized`): greedy measuring pass, then
`maxVisibleTabs = Math.max(1, fittingTabCount)` and
`visibleTabIndices = allTabs.slice(0, maxVisibleTabs).map(t => t.index)`. -/
def coldState (widths : List Int) (avail : Int) : OState :=
  let fit := fittingTabCount widths avail 0
  let maxV := max 1 fit
  { visibleTabIndices := (List.range widths.length).take maxV
    maxVisibleTabs := maxV
    isInitialized := true }

/-- The warm branch: measure the currently visible tabs, evict from the
end while they do not fit, then
`maxVisibleTabs = Math.max(1, visibleTabIndices.length)`. -/
def warmState (widths : List Int) (avail : Int) (s : OState) : OState :=
  let cum := visWidth widths s.visibleTabIndices
  let vis := evictFromEnd widths avail s.visibleTabIndices cum
  { visibleTabIndices := vis
    maxVisibleTabs := max 1 vis.length
    isInitialized := true }

/-- The `detectOverflow()` method: returns the updated directive state
together with the partition object it builds.  `containerWidth` is the
measured container width;
`availableWidth = containerWidth - menuButtonWidth`. -/
def detectOverflow (widths : List Int) (containerWidth : Int) (s : OState) :
    OState × TabPartition :=
  if widths.length = 0 then (s, emptyPartition)
  else
    let avail := containerWidth - menuButtonWidth
    let s' := if s.isInitialized then warmState widths avail s else coldState widths avail
    let n := widths.length
    let p := splitTabs s'.visibleTabIndices s'.maxVisibleTabs (List.range n) 0
    (s', { hasOverflow := decide (n > s'.maxVisibleTabs)
           allIdx := List.range n
           visibleIdx := p.1
           hiddenIdx := p.2 })

/-- The `makeTabVisible(selectedIndex)` method: if the tab is already
visible the method returns at once (state and exposed partition
untouched — `cur` is the partition currently held by the signals);
otherwise the last (rightmost) visible index is popped, `selectedIndex`
is pushed, and `detectOverflow` revalidates the fit and rebuilds the
partition. -/
def makeTabVisible (widths : List Int) (containerWidth : Int) (s : OState)
    (cur : TabPartition) (selectedIndex : Nat) : OState × TabPartition :=
  if selectedIndex ∈ s.visibleTabIndices then (s, cur)
  else
    let vis := s.visibleTabIndices.dropLast ++ [selectedIndex]
    detectOverflow widths containerWidth { s with visibleTabIndices := vis }

/-- States reachable through valid use of the directive: initialized,
with a non-empty, duplicate-free visible-index list all of whose entries
refer to existing tabs. -/
def ValidState (widths : List Int) (s : OState) : Prop :=
  s.isInitialized = true ∧ s.visibleTabIndices ≠ [] ∧
    s.visibleTabIndices.Nodup ∧ ∀ j ∈ s.visibleTabIndices, j < widths.length

instance (widths : List Int) (s : OState) : Decidable (ValidState widths s) := by
  unfold ValidState; infer_instance

/-- Repeated recomputes: run `detectOverflow` once per container width in
`cws`, threading the state, and collect the produced partitions. -/
def runRecomputes (widths : List Int) : OState → List Int → List TabPartition
  | _, [] => []
  | s, cw :: rest =>
    let r := detectOverflow widths cw s
    r.2 :: runRecomputes widths r.1 rest

lemma visWidth_append (widths : List Int) (l₁ l₂ : List Nat) :
    visWidth widths (l₁ ++ l₂) = visWidth widths l₁ + visWidth widths l₂ := by
  simp [visWidth]

lemma dropLast_append_getLastD {l : List Nat} (h : l ≠ []) :
    l.dropLast ++ [l.getLastD 0] = l := by
  have h₁ : l.getLastD 0 = l.getLast h := by
    rw [List.getLastD_eq_getLast?, List.getLast?_eq_getLast l h]
    rfl
  rw [h₁, List.dropLast_append_getLast h]

lemma evictGo_of_fit (widths : List Int) (avail : Int) (fuel : Nat) (vis : List Nat)
    (cum : Int) (h : cum ≤ avail) :
    evictGo widths avail fuel vis cum = vis := by
  cases fuel with
  | zero => rfl
  | succ fuel => rw [evictGo, if_neg (fun hc => absurd hc.1 (not_lt.mpr h))]

lemma evictGo_eq_append (widths : List Int) (avail : Int) :
    ∀ (fuel : Nat) (vis : List Nat) (cum : Int),
      ∃ t, vis = evictGo widths avail fuel vis cum ++ t := by
  intro fuel
  induction fuel with
  | zero => intro vis cum; exact ⟨[], by simp [evictGo]⟩
  | succ fuel ih =>
    intro vis cum
    by_cases h : avail < cum ∧ 1 < vis.length
    · have hne : vis ≠ [] := by
        intro hnil; rw [hnil] at h; simp at h
      obtain ⟨t, ht⟩ := ih vis.dropLast (cum - widthAt widths (vis.getLastD 0))
      refine ⟨t ++ [vis.getLastD 0], ?_⟩
      rw [evictGo, if_pos h, ← List.append_assoc, ← ht, dropLast_append_getLastD hne]
    · exact ⟨[], by rw [evictGo, if_neg h, List.append_nil]⟩

lemma evictGo_ne_nil (widths : List Int) (avail : Int) :
    ∀ (fuel : Nat) (vis : List Nat) (cum : Int),
      vis ≠ [] → evictGo widths avail fuel vis cum ≠ [] := by
  intro fuel
  induction fuel with
  | zero => intro vis cum h; simpa [evictGo] using h
  | succ fuel ih =>
    intro vis cum h
    by_cases hc : avail < cum ∧ 1 < vis.length
    · rw [evictGo, if_pos hc]
      apply ih
      intro hnil
      have := congrArg List.length hnil
      simp [List.length_dropLast] at this
      omega
    · rwa [evictGo, if_neg hc]

lemma evictGo_fits (widths : List Int) (avail : Int) :
    ∀ (fuel : Nat) (vis : List Nat) (cum : Int),
      vis.length ≤ fuel → cum = visWidth widths vis →
      visWidth widths (evictGo widths avail fuel vis cum) ≤ avail ∨
        (evictGo widths avail fuel vis cum).length ≤ 1 := by
  intro fuel
  induction fuel with
  | zero =>
    intro vis cum hlen _
    right
    simpa [evictGo] using Nat.le_trans hlen (by omega)
  | succ fuel ih =>
    intro vis cum hlen hcum
    by_cases hc : avail < cum ∧ 1 < vis.length
    · rw [evictGo, if_pos hc]
      have hne : vis ≠ [] := by
        intro hnil; rw [hnil] at hc; simp at hc
      apply ih
      · have := List.length_dropLast vis
        omega
      · have hsplit : visWidth widths vis =
            visWidth widths vis.dropLast + widthAt widths (vis.getLastD 0) := by
          conv_lhs => rw [← dropLast_append_getLastD hne]
          rw [visWidth_append]
          simp [visWidth]
        rw [hcum, hsplit]
        ring
    · rw [evictGo, if_neg hc]
      rcases not_and_or.mp hc with h | h
      · left; rw [← hcum]; exact le_of_not_lt h
      · right; omega

lemma splitTabs_fst_sublist (vis : List Nat) (maxV : Nat) :
    ∀ (idxs : List Nat) (c : Nat),
      (splitTabs vis maxV idxs c).1.Sublist idxs := by
  intro idxs
  induction idxs with
  | nil => intro c; simp [splitTabs]
  | cons j rest ih =>
    intro c
    by_cases h : j ∈ vis ∧ c < maxV
    · simpa [splitTabs, if_pos h] using (ih (c + 1)).cons₂ j
    · simpa [splitTabs, if_neg h] using (ih c).cons j

lemma splitTabs_snd_sublist (vis : List Nat) (maxV : Nat) :
    ∀ (idxs : List Nat) (c : Nat),
      (splitTabs vis maxV idxs c).2.Sublist idxs := by
  intro idxs
  induction idxs with
  | nil => intro c; simp [splitTabs]
  | cons j rest ih =>
    intro c
    by_cases h : j ∈ vis ∧ c < maxV
    · simpa [splitTabs, if_pos h] using (ih (c + 1)).cons j
    · simpa [splitTabs, if_neg h] using (ih c).cons₂ j

lemma splitTabs_perm (vis : List Nat) (maxV : Nat) :
    ∀ (idxs : List Nat) (c : Nat),
      ((splitTabs vis maxV idxs c).1 ++ (splitTabs vis maxV idxs c).2).Perm idxs := by
  intro idxs
  induction idxs with
  | nil => intro c; simp [splitTabs]
  | cons j rest ih =>
    intro c
    by_cases h : j ∈ vis ∧ c < maxV
    · simpa [splitTabs, if_pos h] using (ih (c + 1)).cons j
    · rw [splitTabs, if_neg h]
      exact List.perm_middle.trans ((ih c).cons j)

lemma splitTabs_disjoint (vis : List Nat) (maxV : Nat) :
    ∀ (idxs : List Nat) (c : Nat), idxs.Nodup →
      (splitTabs vis maxV idxs c).1.Disjoint (splitTabs vis maxV idxs c).2 := by
  intro idxs
  induction idxs with
  | nil => intro c _; simp [splitTabs, List.Disjoint]
  | cons j rest ih =>
    intro c hnd
    have hj : j ∉ rest := (List.nodup_cons.mp hnd).1
    have hrest : rest.Nodup := (List.nodup_cons.mp hnd).2
    by_cases h : j ∈ vis ∧ c < maxV
    · rw [splitTabs, if_pos h]
      intro a ha hb
      rcases List.mem_cons.mp ha with rfl | ha'
      · exact hj ((splitTabs_snd_sublist vis maxV rest (c + 1)).mem hb)
      · exact ih (c + 1) hrest ha' hb
    · rw [splitTabs, if_neg h]
      intro a ha hb
      rcases List.mem_cons.mp hb with rfl | hb'
      · exact hj ((splitTabs_fst_sublist vis maxV rest c).mem ha)
      · exact ih c hrest ha hb'

lemma splitTabs_fst_length_le (vis : List Nat) (maxV : Nat) :
    ∀ (idxs : List Nat) (c : Nat),
      (splitTabs vis maxV idxs c).1.length ≤ maxV - c := by
  intro idxs
  induction idxs with
  | nil => intro c; simp [splitTabs]
  | cons j rest ih =>
    intro c
    by_cases h : j ∈ vis ∧ c < maxV
    · rw [splitTabs, if_pos h]
      have := ih (c + 1)
      simp only [List.length_cons]
      omega
    · rw [splitTabs, if_neg h]
      exact ih c

lemma splitTabs_fst_eq_filter (vis : List Nat) (maxV : Nat) :
    ∀ (idxs : List Nat) (c : Nat),
      (idxs.filter (fun j => decide (j ∈ vis))).length + c ≤ maxV →
      (splitTabs vis maxV idxs c).1 = idxs.filter (fun j => decide (j ∈ vis)) := by
  intro idxs
  induction idxs with
  | nil => intro c _; simp [splitTabs]
  | cons j rest ih =>
    intro c hcap
    by_cases hm : j ∈ vis
    · have hfil : (j :: rest).filter (fun j => decide (j ∈ vis)) =
          j :: rest.filter (fun j => decide (j ∈ vis)) := by
        simp [List.filter_cons, hm]
      rw [hfil] at hcap ⊢
      simp only [List.length_cons] at hcap
      have hc : c < maxV := by omega
      rw [splitTabs, if_pos ⟨hm, hc⟩]
      simp only []
      rw [ih (c + 1) (by omega)]
    · have hfil : (j :: rest).filter (fun j => decide (j ∈ vis)) =
          rest.filter (fun j => decide (j ∈ vis)) := by
        simp [List.filter_cons, hm]
      rw [hfil] at hcap ⊢
      rw [splitTabs, if_neg (by tauto)]
      exact ih c hcap

lemma splitTabs_fst_ne_nil (vis : List Nat) (maxV : Nat) :
    ∀ (idxs : List Nat) (c : Nat), c < maxV →
      (∃ j, j ∈ idxs ∧ j ∈ vis) →
      (splitTabs vis maxV idxs c).1 ≠ [] := by
  intro idxs
  induction idxs with
  | nil => intro c _ h; simp at h
  | cons j rest ih =>
    intro c hc ⟨j₀, hj₀, hj₀v⟩
    by_cases h : j ∈ vis ∧ c < maxV
    · rw [splitTabs, if_pos h]; simp
    · have hjv : j ∉ vis := by tauto
      rw [splitTabs, if_neg h]
      apply ih c hc
      rcases List.mem_cons.mp hj₀ with rfl | h'
      · exact absurd hj₀v hjv
      · exact ⟨j₀, h', hj₀v⟩

lemma filter_range_length {vis : List Nat} {n : Nat} (hnd : vis.Nodup)
    (hv : ∀ j ∈ vis, j < n) :
    ((List.range n).filter (fun j => decide (j ∈ vis))).length = vis.length := by
  apply Nat.le_antisymm
  · apply List.Subperm.length_le
    apply List.Nodup.subperm ((List.nodup_range n).filter _)
    intro a ha
    exact of_decide_eq_true (List.mem_filter.mp ha).2
  · apply List.Subperm.length_le
    apply List.Nodup.subperm hnd
    intro a ha
    exact List.mem_filter.mpr ⟨List.mem_range.mpr (hv a ha), decide_eq_true ha⟩

lemma fittingTabCount_take_le :
    ∀ (l : List Int) (avail cum : Int) (k : Nat),
      k ≤ fittingTabCount l avail cum → 1 ≤ k →
      cum + (l.take k).sum ≤ avail := by
  intro l
  induction l with
  | nil => intro avail cum k hk h1; simp [fittingTabCount] at hk; omega
  | cons w rest ih =>
    intro avail cum k hk h1
    by_cases h : cum + w ≤ avail
    · rw [fittingTabCount, if_pos h] at hk
      match k with
      | 0 => omega
      | 1 =>
        simpa using h
      | j + 2 =>
        have := ih avail (cum + w) (j + 1) (by omega) (by omega)
        simp only [List.take_succ_cons, List.sum_cons]
        omega
    · rw [fittingTabCount, if_neg h] at hk
      omega

lemma fittingTabCount_stop :
    ∀ (l : List Int) (avail cum : Int),
      fittingTabCount l avail cum < l.length →
      avail < cum + (l.take (fittingTabCount l avail cum + 1)).sum := by
  intro l
  induction l with
  | nil => intro avail cum h; simp [fittingTabCount] at h
  | cons w rest ih =>
    intro avail cum h
    by_cases hw : cum + w ≤ avail
    · rw [fittingTabCount, if_pos hw] at h ⊢
      have h' : fittingTabCount rest avail (cum + w) < rest.length := by
        simp only [List.length_cons] at h; omega
      have := ih avail (cum + w) h'
      have heq : 1 + fittingTabCount rest avail (cum + w) + 1 =
          (fittingTabCount rest avail (cum + w) + 1) + 1 := by omega
      rw [heq, List.take_succ_cons, List.sum_cons]
      omega
    · rw [fittingTabCount, if_neg hw] at h ⊢
      simp only [Nat.zero_add, List.take_succ_cons, List.take_zero, List.sum_cons,
        List.sum_nil]
      omega

lemma evict_eq_append (widths : List Int) (avail : Int) (vis : List Nat) (cum : Int) :
    ∃ t, vis = evictFromEnd widths avail vis cum ++ t :=
  evictGo_eq_append widths avail vis.length vis cum

lemma evict_sublist (widths : List Int) (avail : Int) (vis : List Nat) (cum : Int) :
    (evictFromEnd widths avail vis cum).Sublist vis := by
  obtain ⟨t, ht⟩ := evict_eq_append widths avail vis cum
  conv_rhs => rw [ht]
  exact List.sublist_append_left _ _

lemma evict_length_le (widths : List Int) (avail : Int) (vis : List Nat) (cum : Int) :
    (evictFromEnd widths avail vis cum).length ≤ vis.length :=
  (evict_sublist widths avail vis cum).length_le

lemma evict_ne_nil (widths : List Int) (avail : Int) (vis : List Nat) (cum : Int)
    (h : vis ≠ []) : evictFromEnd widths avail vis cum ≠ [] :=
  evictGo_ne_nil widths avail vis.length vis cum h

lemma evict_of_fit (widths : List Int) (avail : Int) (vis : List Nat)
    (h : visWidth widths vis ≤ avail) :
    evictFromEnd widths avail vis (visWidth widths vis) = vis :=
  evictGo_of_fit widths avail vis.length vis _ h

lemma evict_fits (widths : List Int) (avail : Int) (vis : List Nat) :
    visWidth widths (evictFromEnd widths avail vis (visWidth widths vis)) ≤ avail ∨
      (evictFromEnd widths avail vis (visWidth widths vis)).length ≤ 1 :=
  evictGo_fits widths avail vis.length vis _ le_rfl rfl

lemma detectOverflow_fst_warm (widths : List Int) (cw : Int) (s : OState)
    (hn : widths.length ≠ 0) (hi : s.isInitialized = true) :
    (detectOverflow widths cw s).1 = warmState widths (cw - menuButtonWidth) s := by
  simp [detectOverflow, hn, hi]

lemma detectOverflow_fst_cold (widths : List Int) (cw : Int) (s : OState)
    (hn : widths.length ≠ 0) (hi : s.isInitialized = false) :
    (detectOverflow widths cw s).1 = coldState widths (cw - menuButtonWidth) := by
  simp [detectOverflow, hn, hi]

lemma detectOverflow_snd (widths : List Int) (cw : Int) (s : OState)
    (hn : widths.length ≠ 0) :
    (detectOverflow widths cw s).2 =
      { hasOverflow := decide (widths.length > (detectOverflow widths cw s).1.maxVisibleTabs)
        allIdx := List.range widths.length
        visibleIdx := (splitTabs (detectOverflow widths cw s).1.visibleTabIndices
          (detectOverflow widths cw s).1.maxVisibleTabs (List.range widths.length) 0).1
        hiddenIdx := (splitTabs (detectOverflow widths cw s).1.visibleTabIndices
          (detectOverflow widths cw s).1.maxVisibleTabs (List.range widths.length) 0).2 } := by
  simp only [detectOverflow, if_neg hn]

lemma validState_detectOverflow (widths : List Int) (cw : Int) (s : OState)
    (hn : widths.length ≠ 0) (hs : ValidState widths s) :
    ValidState widths (detectOverflow widths cw s).1 ∧
      (detectOverflow widths cw s).1.visibleTabIndices.length ≤
        s.visibleTabIndices.length := by
  obtain ⟨hi, hne, hnd, hv⟩ := hs
  rw [detectOverflow_fst_warm widths cw s hn hi]
  have hsub := evict_sublist widths (cw - menuButtonWidth) s.visibleTabIndices
    (visWidth widths s.visibleTabIndices)
  constructor
  · constructor
    · rfl
    constructor
    · exact evict_ne_nil widths _ _ _ hne
    constructor
    · exact hnd.sublist hsub
    · exact fun j hj => hv j (hsub.mem hj)
  · exact hsub.length_le

/-- Under a valid visible-index list `r` with `maxV = max 1 r.length`, the
split's cap never binds: the visible output is exactly the ascending
filter of `range n` and has the same length as `r`. -/
lemma split_exact (r : List Nat) (n : Nat) (hnd : r.Nodup) (hv : ∀ j ∈ r, j < n) :
    (splitTabs r (max 1 r.length) (List.range n) 0).1 =
      (List.range n).filter (fun j => decide (j ∈ r)) ∧
    (splitTabs r (max 1 r.length) (List.range n) 0).1.length = r.length := by
  have hflen := filter_range_length hnd hv
  have hcap : ((List.range n).filter (fun j => decide (j ∈ r))).length + 0 ≤
      max 1 r.length := by
    rw [hflen]; omega
  have heq := splitTabs_fst_eq_filter r (max 1 r.length) (List.range n) 0 hcap
  exact ⟨heq, by rw [heq, hflen]⟩

/-- C3: for every item sequence, container width and directive state, the
partition computed by `detectOverflow` assigns every item index to exactly
one of the visible and hidden lists: the two are disjoint and together
they are a permutation of all item indices. -/
theorem c3_partition_complete (widths : List Int) (cw : Int) (s : OState) :
    (detectOverflow widths cw s).2.visibleIdx.Disjoint
      (detectOverflow widths cw s).2.hiddenIdx ∧
    ((detectOverflow widths cw s).2.visibleIdx ++
      (detectOverflow widths cw s).2.hiddenIdx).Perm
      (detectOverflow widths cw s).2.allIdx ∧
    (detectOverflow widths cw s).2.allIdx = List.range widths.length := by
  by_cases hn : widths.length = 0
  · have h0 : widths = [] := List.length_eq_zero.mp hn
    subst h0
    exact ⟨by simp [detectOverflow, emptyPartition, List.Disjoint],
      by simp [detectOverflow, emptyPartition], by simp [detectOverflow, emptyPartition]⟩
  · rw [detectOverflow_snd widths cw s hn]
    exact ⟨splitTabs_disjoint _ _ _ _ (List.nodup_range _),
      splitTabs_perm _ _ _ _, rfl⟩

/-- C4: after every operation the exposed visible list is strictly
ascending by item index: the partition produced by any `detectOverflow`
(cold or warm) is ascending, and `makeTabVisible` preserves ascending
order of the exposed partition — so any sequence of recomputes and
(repeated) promote calls keeps the visible display in index order. -/
theorem c4_visible_ascending (widths : List Int) (cw : Int) (s : OState)
    (cur : TabPartition) (i : Nat) :
    (detectOverflow widths cw s).2.visibleIdx.Pairwise (· < ·) ∧
    (cur.visibleIdx.Pairwise (· < ·) →
      (makeTabVisible widths cw s cur i).2.visibleIdx.Pairwise (· < ·)) := by
  have key : ∀ s' : OState, (detectOverflow widths cw s').2.visibleIdx.Pairwise (· < ·) := by
    intro s'
    by_cases hn : widths.length = 0
    · simp [detectOverflow, hn, emptyPartition]
    · rw [detectOverflow_snd widths cw s' hn]
      exact (List.pairwise_lt_range _).sublist (splitTabs_fst_sublist _ _ _ _)
  refine ⟨key s, fun hcur => ?_⟩
  by_cases hmem : i ∈ s.visibleTabIndices
  · rw [makeTabVisible, if_pos hmem]
    exact hcur
  · rw [makeTabVisible, if_neg hmem]
    exact key _

/-- C4 witness: concrete instance — the cold-start partition of five
100-wide tabs is ascending, and promoting hidden tab 3 keeps the exposed
visible list ascending. -/
theorem c4_visible_ascending_witness :
    (detectOverflow [100, 100, 100, 100, 100] 316 ⟨[], 0, false⟩).2.visibleIdx.Pairwise
      (· < ·) ∧
    (makeTabVisible [100, 100, 100, 100, 100] 316 ⟨[0, 1], 2, true⟩
        (detectOverflow [100, 100, 100, 100, 100] 316 ⟨[], 0, false⟩).2 3).2.visibleIdx.Pairwise
      (· < ·) :=
  ⟨(c4_visible_ascending [100, 100, 100, 100, 100] 316 ⟨[], 0, false⟩
      emptyPartition 0).1,
   (c4_visible_ascending [100, 100, 100, 100, 100] 316 ⟨[0, 1], 2, true⟩
      (detectOverflow [100, 100, 100, 100, 100] 316 ⟨[], 0, false⟩).2 3).2 (by decide)⟩

/-- C7: `makeTabVisible i` when `i` is already visible is a no-op: the
directive returns at once, leaving its state and the exposed partition
exactly as they were. -/
theorem c7_promote_idempotent (widths : List Int) (cw : Int) (s : OState)
    (cur : TabPartition) (i : Nat) (h : i ∈ s.visibleTabIndices) :
    makeTabVisible widths cw s cur i = (s, cur) := by
  rw [makeTabVisible, if_pos h]

/-- C7 witness: promoting already-visible tab 1 of a five-tab state
returns the state and partition unchanged. -/
theorem c7_promote_idempotent_witness :
    1 ∈ OState.visibleTabIndices ⟨[0, 1], 2, true⟩ ∧
    makeTabVisible [100, 100, 100, 100, 100] 316 ⟨[0, 1], 2, true⟩
        (detectOverflow [100, 100, 100, 100, 100] 316 ⟨[], 0, false⟩).2 1 =
      (⟨[0, 1], 2, true⟩,
       (detectOverflow [100, 100, 100, 100, 100] 316 ⟨[], 0, false⟩).2) :=
  ⟨by decide,
   c7_promote_idempotent [100, 100, 100, 100, 100] 316 ⟨[0, 1], 2, true⟩
     (detectOverflow [100, 100, 100, 100, 100] 316 ⟨[], 0, false⟩).2 1 (by decide)⟩

/-- C6: the cold-start computation scans items in index order, taking an
item while the accumulated width plus the item's width stays within the
usable width (every accepted count `k ≥ 1` has prefix sum within
`cw - menuButtonWidth`), stops at the first overflowing item (the next
prefix sum exceeds the usable width), always keeps at least one item, and
on 5 items of width 100 with usable width 260 yields visible `[0, 1]`,
hidden `[2, 3, 4]`. -/
theorem c6_cold_start_greedy (widths : List Int) (cw : Int) (s : OState)
    (hi : s.isInitialized = false) (hne : widths ≠ []) :
    (detectOverflow widths cw s).1.visibleTabIndices =
      (List.range widths.length).take
        (max 1 (fittingTabCount widths (cw - menuButtonWidth) 0)) ∧
    (detectOverflow widths cw s).1.visibleTabIndices ≠ [] ∧
    (∀ k, 1 ≤ k → k ≤ fittingTabCount widths (cw - menuButtonWidth) 0 →
      (widths.take k).sum ≤ cw - menuButtonWidth) ∧
    (fittingTabCount widths (cw - menuButtonWidth) 0 < widths.length →
      cw - menuButtonWidth <
        (widths.take (fittingTabCount widths (cw - menuButtonWidth) 0 + 1)).sum) ∧
    (detectOverflow [100, 100, 100, 100, 100] 316 ⟨[], 0, false⟩).2.visibleIdx = [0, 1] ∧
    (detectOverflow [100, 100, 100, 100, 100] 316 ⟨[], 0, false⟩).2.hiddenIdx = [2, 3, 4] := by
  have hn : widths.length ≠ 0 := fun h => hne (List.length_eq_zero.mp h)
  rw [detectOverflow_fst_cold widths cw s hn hi]
  refine ⟨rfl, ?_, ?_, ?_, by decide, by decide⟩
  · show (List.range widths.length).take _ ≠ []
    rw [List.take_range]
    intro hnil
    have := congrArg List.length hnil
    simp only [List.length_range, List.length_nil] at this
    omega
  · intro k h1 hk
    have := fittingTabCount_take_le widths (cw - menuButtonWidth) 0 k hk h1
    omega
  · intro hlt
    have := fittingTabCount_stop widths (cw - menuButtonWidth) 0 hlt
    omega

/-- C6 witness: the cold-start theorem instantiated on the spec's
five-items scenario. -/
theorem c6_cold_start_greedy_witness :
    OState.isInitialized ⟨[], 0, false⟩ = false ∧
    ([100, 100, 100, 100, 100] : List Int) ≠ [] ∧
    (detectOverflow [100, 100, 100, 100, 100] 316 ⟨[], 0, false⟩).1.visibleTabIndices =
      (List.range (5 : Nat)).take
        (max 1 (fittingTabCount [100, 100, 100, 100, 100] (316 - menuButtonWidth) 0)) :=
  ⟨rfl, by decide,
   (c6_cold_start_greedy [100, 100, 100, 100, 100] 316 ⟨[], 0, false⟩ rfl
     (by decide)).1⟩

/-- C5: a warm recompute with a non-empty previous visible list keeps the
list unchanged when its total measured width still fits the usable width;
otherwise it evicts from the end only (the new list is an initial segment
of the old), never empties it, and stops as soon as the remainder fits or
exactly one item remains; when the previous list is ascending, every
evicted index is larger than every kept index (highest index first). -/
theorem c5_warm_recompute (widths : List Int) (cw : Int) (s : OState)
    (hw : widths ≠ []) (hi : s.isInitialized = true)
    (hne : s.visibleTabIndices ≠ []) :
    (visWidth widths s.visibleTabIndices ≤ cw - menuButtonWidth →
      (detectOverflow widths cw s).1.visibleTabIndices = s.visibleTabIndices) ∧
    (∃ t, s.visibleTabIndices = (detectOverflow widths cw s).1.visibleTabIndices ++ t) ∧
    (detectOverflow widths cw s).1.visibleTabIndices ≠ [] ∧
    (visWidth widths (detectOverflow widths cw s).1.visibleTabIndices ≤
        cw - menuButtonWidth ∨
      (detectOverflow widths cw s).1.visibleTabIndices.length = 1) ∧
    (s.visibleTabIndices.Pairwise (· < ·) →
      ∀ x ∈ (detectOverflow widths cw s).1.visibleTabIndices,
        ∀ y ∈ s.visibleTabIndices,
          y ∉ (detectOverflow widths cw s).1.visibleTabIndices → x < y) := by
  have hn : widths.length ≠ 0 := fun h => hw (List.length_eq_zero.mp h)
  rw [detectOverflow_fst_warm widths cw s hn hi]
  have hvis : (warmState widths (cw - menuButtonWidth) s).visibleTabIndices =
      evictFromEnd widths (cw - menuButtonWidth) s.visibleTabIndices
        (visWidth widths s.visibleTabIndices) := rfl
  rw [hvis]
  refine ⟨fun hfit => evict_of_fit widths _ _ hfit,
    evict_eq_append widths _ _ _,
    evict_ne_nil widths _ _ _ hne, ?_, ?_⟩
  · rcases evict_fits widths (cw - menuButtonWidth) s.visibleTabIndices with h | h
    · exact Or.inl h
    · right
      have hlen : 1 ≤ (evictFromEnd widths (cw - menuButtonWidth) s.visibleTabIndices
          (visWidth widths s.visibleTabIndices)).length :=
        List.length_pos.mpr (evict_ne_nil widths _ _ _ hne)
      omega
  · intro hpair x hx y hy hyn
    obtain ⟨t, ht⟩ := evict_eq_append widths (cw - menuButtonWidth)
      s.visibleTabIndices (visWidth widths s.visibleTabIndices)
    rw [ht] at hpair hy
    have := (List.pairwise_append.mp hpair).2.2
    rcases List.mem_append.mp hy with hyr | hyt
    · exact absurd hyr hyn
    · exact this x hx y hyt

/-- C5 witness: the spec's shrink scenario — five 100-wide tabs, visible
`[0, 1]`, container shrunk so the usable width is 50: the warm recompute
evicts from the end down to the single tab `[0]`. -/
theorem c5_warm_recompute_witness :
    ([100, 100, 100, 100, 100] : List Int) ≠ [] ∧
    OState.isInitialized ⟨[0, 1], 2, true⟩ = true ∧
    OState.visibleTabIndices ⟨[0, 1], 2, true⟩ ≠ [] ∧
    ((detectOverflow [100, 100, 100, 100, 100] 106 ⟨[0, 1], 2, true⟩).1.visibleTabIndices ≠ [] ∧
     (visWidth [100, 100, 100, 100, 100]
         (detectOverflow [100, 100, 100, 100, 100] 106 ⟨[0, 1], 2, true⟩).1.visibleTabIndices ≤
           106 - menuButtonWidth ∨
       (detectOverflow [100, 100, 100, 100, 100] 106 ⟨[0, 1], 2, true⟩).1.visibleTabIndices.length = 1)) :=
  ⟨by decide, rfl, by decide,
   (c5_warm_recompute [100, 100, 100, 100, 100] 106 ⟨[0, 1], 2, true⟩ (by decide) rfl
      (by decide)).2.2.1,
   (c5_warm_recompute [100, 100, 100, 100, 100] 106 ⟨[0, 1], 2, true⟩ (by decide) rfl
      (by decide)).2.2.2.1⟩

/-- C1 counterexample: `makeTabVisible 99` on the five-tab state with
visible `[0, 1]` does not fail and does not leave the partition
unchanged: the directive state mutates (visible indices become
`[0, 99]`) and the exposed visible list shrinks to `[0]`. -/
theorem c1_invalid_promote_counterexample :
    (makeTabVisible [100, 100, 100, 100, 100] 316 ⟨[0, 1], 2, true⟩
        ⟨true, [0, 1, 2, 3, 4], [0, 1], [2, 3, 4]⟩ 99).1 ≠
      (⟨[0, 1], 2, true⟩ : OState) ∧
    (makeTabVisible [100, 100, 100, 100, 100] 316 ⟨[0, 1], 2, true⟩
        ⟨true, [0, 1, 2, 3, 4], [0, 1], [2, 3, 4]⟩ 99).2.visibleIdx ≠ [0, 1] := by
  decide

/-- C1 (amended): `makeTabVisible i` performs no range validation: for an
index `i` outside the item set (and not already recorded as visible) it
takes the normal promotion path — evicting the last visible index and
appending `i` — instead of failing, so the state is in general changed;
the phantom index `i` itself never appears in the exposed visible or
hidden lists, which only cover real item indices. -/
theorem c1_invalid_promote (widths : List Int) (cw : Int) (s : OState)
    (cur : TabPartition) (i : Nat) (hout : widths.length ≤ i)
    (hnv : i ∉ s.visibleTabIndices) :
    makeTabVisible widths cw s cur i =
      detectOverflow widths cw
        { s with visibleTabIndices := s.visibleTabIndices.dropLast ++ [i] } ∧
    i ∉ (makeTabVisible widths cw s cur i).2.visibleIdx ∧
    i ∉ (makeTabVisible widths cw s cur i).2.hiddenIdx := by
  have heq : makeTabVisible widths cw s cur i =
      detectOverflow widths cw
        { s with visibleTabIndices := s.visibleTabIndices.dropLast ++ [i] } := by
    rw [makeTabVisible, if_neg hnv]
  refine ⟨heq, ?_, ?_⟩ <;> rw [heq]
  · by_cases hn : widths.length = 0
    · simp [detectOverflow, hn, emptyPartition]
    · rw [detectOverflow_snd widths cw _ hn]
      intro hmem
      have := List.mem_range.mp ((splitTabs_fst_sublist _ _ _ _).mem hmem)
      omega
  · by_cases hn : widths.length = 0
    · simp [detectOverflow, hn, emptyPartition]
    · rw [detectOverflow_snd widths cw _ hn]
      intro hmem
      have := List.mem_range.mp ((splitTabs_snd_sublist _ _ _ _).mem hmem)
      omega

/-- C1 witness: the amended theorem at the concrete invalid promote
`makeTabVisible 99` of the five-tab scenario. -/
theorem c1_invalid_promote_witness :
    ([100, 100, 100, 100, 100] : List Int).length ≤ 99 ∧
    99 ∉ OState.visibleTabIndices ⟨[0, 1], 2, true⟩ ∧
    99 ∉ (makeTabVisible [100, 100, 100, 100, 100] 316 ⟨[0, 1], 2, true⟩
        ⟨true, [0, 1, 2, 3, 4], [0, 1], [2, 3, 4]⟩ 99).2.visibleIdx :=
  ⟨by decide, by decide,
   (c1_invalid_promote [100, 100, 100, 100, 100] 316 ⟨[0, 1], 2, true⟩
      ⟨true, [0, 1, 2, 3, 4], [0, 1], [2, 3, 4]⟩ 99 (by decide) (by decide)).2.1⟩

/-- C10: promoting a hidden index appends it at the end of the internal
visible sequence (the candidate list is the old list minus its last
element, with `i` appended last, so `i` is the rightmost entry), and the
fit revalidation evicts from that same end first; concretely, with widths
`[100, 100, 200]`, usable width 200 and visible `[0, 1]`, `promote 2`
appends 2, the revalidation evicts 2 itself first, and the returned
partition still hides 2. -/
theorem c10_promote_can_evict_promoted (widths : List Int) (cw : Int) (s : OState)
    (cur : TabPartition) (i : Nat) (h : i ∉ s.visibleTabIndices) :
    makeTabVisible widths cw s cur i =
      detectOverflow widths cw
        { s with visibleTabIndices := s.visibleTabIndices.dropLast ++ [i] } ∧
    (s.visibleTabIndices.dropLast ++ [i]).getLastD 0 = i ∧
    (makeTabVisible [100, 100, 200] 256 ⟨[0, 1], 2, true⟩ emptyPartition 2).2.visibleIdx
      = [0] ∧
    2 ∈ (makeTabVisible [100, 100, 200] 256 ⟨[0, 1], 2, true⟩ emptyPartition 2).2.hiddenIdx := by
  refine ⟨by rw [makeTabVisible, if_neg h], ?_, by decide, by decide⟩
  rw [List.getLastD_eq_getLast?, List.getLast?_concat]
  rfl

/-- C10 witness: the theorem at the concrete promote of hidden tab 2. -/
theorem c10_promote_can_evict_promoted_witness :
    2 ∉ OState.visibleTabIndices ⟨[0, 1], 2, true⟩ ∧
    (makeTabVisible [100, 100, 200] 256 ⟨[0, 1], 2, true⟩ emptyPartition 2).2.visibleIdx
      = [0] :=
  ⟨by decide,
   (c10_promote_can_evict_promoted [100, 100, 200] 256 ⟨[0, 1], 2, true⟩
      emptyPartition 2 (by decide)).2.2.1⟩

lemma cold_visibleIdx_ne_nil (widths : List Int) (cw : Int) (s : OState)
    (hn : widths.length ≠ 0) (hi : s.isInitialized = false) :
    (detectOverflow widths cw s).2.visibleIdx ≠ [] := by
  have hsnd := detectOverflow_snd widths cw s hn
  have hvisIdx : (detectOverflow widths cw s).2.visibleIdx =
      (splitTabs (detectOverflow widths cw s).1.visibleTabIndices
        (detectOverflow widths cw s).1.maxVisibleTabs (List.range widths.length) 0).1 := by
    rw [hsnd]
  rw [hvisIdx, detectOverflow_fst_cold widths cw s hn hi]
  apply splitTabs_fst_ne_nil
  · show 0 < max 1 (fittingTabCount widths (cw - menuButtonWidth) 0)
    omega
  · refine ⟨0, List.mem_range.mpr (by omega), ?_⟩
    show 0 ∈ (List.range widths.length).take (max 1 _)
    rw [List.take_range]
    exact List.mem_range.mpr (by omega)

lemma warm_visibleIdx_ne_nil (widths : List Int) (cw : Int) (s : OState)
    (hn : widths.length ≠ 0) (hi : s.isInitialized = true)
    (hne : s.visibleTabIndices ≠ [])
    (hv : ∀ j ∈ s.visibleTabIndices, j < widths.length) :
    (detectOverflow widths cw s).2.visibleIdx ≠ [] := by
  have hsnd := detectOverflow_snd widths cw s hn
  have hvisIdx : (detectOverflow widths cw s).2.visibleIdx =
      (splitTabs (detectOverflow widths cw s).1.visibleTabIndices
        (detectOverflow widths cw s).1.maxVisibleTabs (List.range widths.length) 0).1 := by
    rw [hsnd]
  rw [hvisIdx, detectOverflow_fst_warm widths cw s hn hi]
  have hrne : (warmState widths (cw - menuButtonWidth) s).visibleTabIndices ≠ [] :=
    evict_ne_nil widths _ _ _ hne
  have hrsub : ((warmState widths (cw - menuButtonWidth) s).visibleTabIndices).Sublist
      s.visibleTabIndices := evict_sublist widths _ _ _
  obtain ⟨j, hj⟩ := List.exists_mem_of_ne_nil _ hrne
  apply splitTabs_fst_ne_nil
  · show 0 < max 1 (warmState widths (cw - menuButtonWidth) s).visibleTabIndices.length
    omega
  · exact ⟨j, List.mem_range.mpr (hv j (hrsub.mem hj)), hj⟩

/-- C2 counterexample: on the single-item set `[100]`, starting from the
cold partition (visible `[0]`), the promote call `makeTabVisible 5` (an
out-of-range index) produces a partition with an empty visible list —
so "every partition produced by promote has at least one visible item"
fails as stated. -/
theorem c2_min_visibility_counterexample :
    ([100] : List Int) ≠ [] ∧
    (makeTabVisible [100] 200 (detectOverflow [100] 200 ⟨[], 0, false⟩).1
        (detectOverflow [100] 200 ⟨[], 0, false⟩).2 5).2.visibleIdx = [] := by
  decide

/-- C2 (amended): minimum visibility holds for every operation on real
indices: a cold start over a non-empty item set, a warm recompute from a
state whose visible indices all refer to existing items, and a promote
of an index inside the item set all produce a partition with at least
one visible item — only a promote of an out-of-range index can empty the
visible list. -/
theorem c2_min_visibility (widths : List Int) (cw : Int) (s : OState)
    (cur : TabPartition) (i : Nat) (hw : widths ≠ []) :
    (s.isInitialized = false → (detectOverflow widths cw s).2.visibleIdx ≠ []) ∧
    (s.isInitialized = true → s.visibleTabIndices ≠ [] →
      (∀ j ∈ s.visibleTabIndices, j < widths.length) →
      (detectOverflow widths cw s).2.visibleIdx ≠ []) ∧
    (i < widths.length → i ∉ s.visibleTabIndices →
      (∀ j ∈ s.visibleTabIndices, j < widths.length) →
      (makeTabVisible widths cw s cur i).2.visibleIdx ≠ []) := by
  have hn : widths.length ≠ 0 := fun h => hw (List.length_eq_zero.mp h)
  refine ⟨fun hi => cold_visibleIdx_ne_nil widths cw s hn hi,
    fun hi hne hv => warm_visibleIdx_ne_nil widths cw s hn hi hne hv, ?_⟩
  intro hilt hnv hv
  simp only [makeTabVisible, if_neg hnv]
  have hv' : ∀ j ∈ s.visibleTabIndices.dropLast ++ [i], j < widths.length := by
    intro j hj
    rcases List.mem_append.mp hj with hj' | hj'
    · exact hv j ((List.dropLast_sublist _).mem hj')
    · simp only [List.mem_singleton] at hj'
      omega
  cases hcase : s.isInitialized with
  | false =>
    exact cold_visibleIdx_ne_nil widths cw
      ⟨s.visibleTabIndices.dropLast ++ [i], s.maxVisibleTabs, false⟩ hn rfl
  | true =>
    exact warm_visibleIdx_ne_nil widths cw
      ⟨s.visibleTabIndices.dropLast ++ [i], s.maxVisibleTabs, true⟩ hn rfl
      (by simp) hv'

/-- C2 witness: the amended theorem on the five-tab scenario — cold
start, warm recompute at usable width 50, and promote of real index 3
each keep at least one tab visible. -/
theorem c2_min_visibility_witness :
    ([100, 100, 100, 100, 100] : List Int) ≠ [] ∧
    (OState.isInitialized ⟨[0, 1], 2, true⟩ = true →
      OState.visibleTabIndices ⟨[0, 1], 2, true⟩ ≠ [] →
      (∀ j ∈ OState.visibleTabIndices ⟨[0, 1], 2, true⟩,
        j < ([100, 100, 100, 100, 100] : List Int).length) →
      (detectOverflow [100, 100, 100, 100, 100] 106 ⟨[0, 1], 2, true⟩).2.visibleIdx ≠ []) ∧
    (3 < ([100, 100, 100, 100, 100] : List Int).length →
      3 ∉ OState.visibleTabIndices ⟨[0, 1], 2, true⟩ →
      (∀ j ∈ OState.visibleTabIndices ⟨[0, 1], 2, true⟩,
        j < ([100, 100, 100, 100, 100] : List Int).length) →
      (makeTabVisible [100, 100, 100, 100, 100] 106 ⟨[0, 1], 2, true⟩
        emptyPartition 3).2.visibleIdx ≠ []) :=
  ⟨by decide,
   (c2_min_visibility [100, 100, 100, 100, 100] 106 ⟨[0, 1], 2, true⟩
      emptyPartition 3 (by decide)).2.1,
   (c2_min_visibility [100, 100, 100, 100, 100] 106 ⟨[0, 1], 2, true⟩
      emptyPartition 3 (by decide)).2.2⟩

/-- On the warm path from a valid state, the cap in the split never
binds: the exposed visible list has exactly as many entries as the
post-eviction `visibleTabIndices`. -/
lemma warm_partition_length (widths : List Int) (cw : Int) (s : OState)
    (hn : widths.length ≠ 0) (hs : ValidState widths s) :
    (detectOverflow widths cw s).2.visibleIdx.length =
      (detectOverflow widths cw s).1.visibleTabIndices.length := by
  obtain ⟨hi, hne, hnd, hv⟩ := hs
  have hfst := detectOverflow_fst_warm widths cw s hn hi
  have hsub : ((detectOverflow widths cw s).1.visibleTabIndices).Sublist
      s.visibleTabIndices := by
    rw [hfst]; exact evict_sublist _ _ _ _
  have hmv : (detectOverflow widths cw s).1.maxVisibleTabs =
      max 1 (detectOverflow widths cw s).1.visibleTabIndices.length := by
    rw [hfst]; rfl
  have hvisIdx : (detectOverflow widths cw s).2.visibleIdx =
      (splitTabs (detectOverflow widths cw s).1.visibleTabIndices
        (detectOverflow widths cw s).1.maxVisibleTabs (List.range widths.length) 0).1 := by
    rw [detectOverflow_snd widths cw s hn]
  rw [hvisIdx, hmv]
  exact (split_exact _ _ (hnd.sublist hsub) (fun j hj => hv j (hsub.mem hj))).2

/-- C8 counterexample: the five-tab state visible `[0, 1]` is in the
Overflowing state (hidden `[2, 3, 4]`); recomputing with container width
10000 — total item width 500 easily fits the usable width 9944 — still
yields hidden `[2, 3, 4]`: the claimed `Overflowing -> Fitting`
transition does not happen. -/
theorem c8_overflow_to_fit_counterexample :
    (detectOverflow [100, 100, 100, 100, 100] 10000 ⟨[0, 1], 2, true⟩).2.hiddenIdx
      = [2, 3, 4] ∧
    (100 : Int) + 100 + 100 + 100 + 100 ≤ 10000 - menuButtonWidth := by
  decide

/-- C8 (amended): once Overflowing, a recompute never transitions the
partition to Fitting, no matter how large the available width becomes —
from a valid state whose visible list misses at least one item, the
recomputed hidden list is always non-empty (the warm path never re-adds
items); the Fitting/Overflowing label `hasOverflow` does coincide with
non-emptiness of the hidden list on every recompute from a valid state. -/
theorem c8_overflowing_absorbing (widths : List Int) (cw : Int) (s : OState)
    (hw : widths ≠ []) (hs : ValidState widths s) :
    ((detectOverflow widths cw s).2.hasOverflow = true ↔
      (detectOverflow widths cw s).2.hiddenIdx ≠ []) ∧
    (s.visibleTabIndices.length < widths.length →
      (detectOverflow widths cw s).2.hiddenIdx ≠ []) := by
  have hn : widths.length ≠ 0 := fun h => hw (List.length_eq_zero.mp h)
  obtain ⟨hi, hne, hnd, hv⟩ := hs
  have hfst := detectOverflow_fst_warm widths cw s hn hi
  have hsub : ((detectOverflow widths cw s).1.visibleTabIndices).Sublist
      s.visibleTabIndices := by
    rw [hfst]; exact evict_sublist _ _ _ _
  have hrne : (detectOverflow widths cw s).1.visibleTabIndices ≠ [] := by
    rw [hfst]; exact evict_ne_nil _ _ _ _ hne
  have hrpos : 0 < (detectOverflow widths cw s).1.visibleTabIndices.length :=
    List.length_pos.mpr hrne
  have hmv : (detectOverflow widths cw s).1.maxVisibleTabs =
      (detectOverflow widths cw s).1.visibleTabIndices.length := by
    have : (detectOverflow widths cw s).1.maxVisibleTabs =
        max 1 (detectOverflow widths cw s).1.visibleTabIndices.length := by
      rw [hfst]; rfl
    omega
  have hlen1 := warm_partition_length widths cw s hn ⟨hi, hne, hnd, hv⟩
  have hperm := (splitTabs_perm ((detectOverflow widths cw s).1.visibleTabIndices)
    ((detectOverflow widths cw s).1.maxVisibleTabs) (List.range widths.length) 0).length_eq
  have hvisIdx : (detectOverflow widths cw s).2.visibleIdx =
      (splitTabs (detectOverflow widths cw s).1.visibleTabIndices
        (detectOverflow widths cw s).1.maxVisibleTabs (List.range widths.length) 0).1 := by
    rw [detectOverflow_snd widths cw s hn]
  have hhidIdx : (detectOverflow widths cw s).2.hiddenIdx =
      (splitTabs (detectOverflow widths cw s).1.visibleTabIndices
        (detectOverflow widths cw s).1.maxVisibleTabs (List.range widths.length) 0).2 := by
    rw [detectOverflow_snd widths cw s hn]
  have hov : (detectOverflow widths cw s).2.hasOverflow =
      decide (widths.length > (detectOverflow widths cw s).1.maxVisibleTabs) := by
    rw [detectOverflow_snd widths cw s hn]
  have hsum : (detectOverflow widths cw s).2.visibleIdx.length +
      (detectOverflow widths cw s).2.hiddenIdx.length = widths.length := by
    rw [hvisIdx, hhidIdx]
    simpa [List.length_append] using hperm
  constructor
  · rw [hov]
    constructor
    · intro hd hnil
      have hgt := of_decide_eq_true hd
      rw [hnil] at hsum
      simp only [List.length_nil, Nat.add_zero] at hsum
      omega
    · intro hne2
      apply decide_eq_true
      have : 0 < (detectOverflow widths cw s).2.hiddenIdx.length :=
        List.length_pos.mpr hne2
      omega
  · intro hov' hnil
    have hle : (detectOverflow widths cw s).1.visibleTabIndices.length ≤
        s.visibleTabIndices.length := hsub.length_le
    rw [hnil] at hsum
    simp only [List.length_nil, Nat.add_zero] at hsum
    omega

/-- C8 witness: the amended theorem at the Overflowing five-tab state
with a huge container width. -/
theorem c8_overflowing_absorbing_witness :
    ([100, 100, 100, 100, 100] : List Int) ≠ [] ∧
    ValidState [100, 100, 100, 100, 100] ⟨[0, 1], 2, true⟩ ∧
    (OState.visibleTabIndices ⟨[0, 1], 2, true⟩).length <
      ([100, 100, 100, 100, 100] : List Int).length ∧
    (detectOverflow [100, 100, 100, 100, 100] 10000 ⟨[0, 1], 2, true⟩).2.hiddenIdx ≠ [] :=
  ⟨by decide, by decide, by decide,
   (c8_overflowing_absorbing [100, 100, 100, 100, 100] 10000 ⟨[0, 1], 2, true⟩
      (by decide) (by decide)).2 (by decide)⟩

/-- Every partition produced along a sequence of warm recomputes from a
valid state has visible length at most the starting state's visible
count, and at least one. -/
lemma run_lengths (widths : List Int) :
    ∀ (cws : List Int) (s : OState), widths ≠ [] → ValidState widths s →
      ∀ p ∈ runRecomputes widths s cws,
        p.visibleIdx.length ≤ s.visibleTabIndices.length ∧
          1 ≤ p.visibleIdx.length := by
  intro cws
  induction cws with
  | nil => intro s _ _ p hp; simp [runRecomputes] at hp
  | cons cw rest ih =>
    intro s hw hs p hp
    have hn : widths.length ≠ 0 := fun h => hw (List.length_eq_zero.mp h)
    obtain ⟨hs', hlen⟩ := validState_detectOverflow widths cw s hn hs
    simp only [runRecomputes] at hp
    rcases List.mem_cons.mp hp with rfl | hp'
    · rw [warm_partition_length widths cw s hn hs]
      exact ⟨hlen, List.length_pos.mpr hs'.2.1⟩
    · have := ih (detectOverflow widths cw s).1 hw hs' p hp'
      exact ⟨this.1.trans hlen, this.2⟩

lemma run_chain (widths : List Int) :
    ∀ (cws : List Int) (s : OState), widths ≠ [] → ValidState widths s →
      ((runRecomputes widths s cws).map (fun p => p.visibleIdx.length)).Chain'
        (fun a b => b ≤ a) := by
  intro cws
  induction cws with
  | nil => intro s _ _; simp [runRecomputes]
  | cons cw rest ih =>
    intro s hw hs
    have hn : widths.length ≠ 0 := fun h => hw (List.length_eq_zero.mp h)
    obtain ⟨hs', _⟩ := validState_detectOverflow widths cw s hn hs
    simp only [runRecomputes, List.map_cons]
    rw [List.chain'_cons']
    refine ⟨?_, ih (detectOverflow widths cw s).1 hw hs'⟩
    intro b hb
    have hb' : b ∈ (runRecomputes widths (detectOverflow widths cw s).1 rest).map
        (fun p => p.visibleIdx.length) := List.mem_of_mem_head? hb
    obtain ⟨p, hp, rfl⟩ := List.mem_map.mp hb'
    have := (run_lengths widths rest (detectOverflow widths cw s).1 hw hs' p hp).1
    rw [warm_partition_length widths cw s hn hs]
    exact this

/-- C9: for a fixed item set, across any sequence of recomputes from a
valid state in which the container width decreases monotonically, the
number of visible items in the successive partitions is non-increasing
and never drops below 1. -/
theorem c9_monotonic_shrink (widths : List Int) (s : OState) (cws : List Int)
    (hw : widths ≠ []) (hs : ValidState widths s)
    (_hdec : cws.Chain' (fun a b => b ≤ a)) :
    ((runRecomputes widths s cws).map (fun p => p.visibleIdx.length)).Chain'
      (fun a b => b ≤ a) ∧
    ∀ m ∈ (runRecomputes widths s cws).map (fun p => p.visibleIdx.length), 1 ≤ m := by
  refine ⟨run_chain widths cws s hw hs, ?_⟩
  intro m hm
  obtain ⟨p, hp, rfl⟩ := List.mem_map.mp hm
  exact (run_lengths widths cws s hw hs p hp).2

/-- C9 witness: five 100-wide tabs, visible `[0, 1]`, container widths
shrinking 316 → 207 → 106: visible counts stay non-increasing and
at least 1. -/
theorem c9_monotonic_shrink_witness :
    ([100, 100, 100, 100, 100] : List Int) ≠ [] ∧
    ValidState [100, 100, 100, 100, 100] ⟨[0, 1], 2, true⟩ ∧
    ([316, 207, 106] : List Int).Chain' (fun a b => b ≤ a) ∧
    ∀ m ∈ (runRecomputes [100, 100, 100, 100, 100] ⟨[0, 1], 2, true⟩
        [316, 207, 106]).map (fun p => p.visibleIdx.length), 1 ≤ m :=
  ⟨by decide, by decide, by norm_num [List.chain'_cons],
   (c9_monotonic_shrink [100, 100, 100, 100, 100] ⟨[0, 1], 2, true⟩ [316, 207, 106]
      (by decide) (by decide) (by norm_num [List.chain'_cons])).2⟩

end TabsOverflow
